import Mathlib

/-!
Hover resolution of ccls (`src/messages/textDocument_hover.cc`).

A shallow embedding of the hover request handler: the `Hover` accumulator
(`Hover::add`, `Hover::add_separator`), the code fence (`languageIdentifier`,
`markdown_code`), the definition scan (`getHover`) and the candidate loop of
`MessageHandler::textDocument_hover`.

Conventions of the embedding.
* C strings (`const char *`) and `std::string` are Lean `String`s; `s[0]` being
  non-zero is `s ≠ ""`, and `strlen` / `size()` is the UTF-8 byte length
  `String.utf8ByteSize`.
* `std::string_view kind` is a `String`; the two constants of the namespace
  `MarkupKind` are the strings `"plaintext"` and `"markdown"`.
* `std::optional<T>` and nullable pointers are `Option T`.
* The loops with `break` / `continue` are recursive functions over the list that
  is iterated; the loop body returns the new state and whether `break` was hit.
* What the database and the working files hand to this file (the entity of a
  symbol, the translated range, the size of a type) is carried by the candidate
  symbol itself, since the handler only reads it.
-/

namespace ccls

/-! ## Data model -/

namespace MarkupKind

/-- The constant `MarkupKind::PlainText`. -/
def PlainText : String := "plaintext"

/-- The constant `MarkupKind::Markdown`. -/
def Markdown : String := "markdown"

end MarkupKind

/-- The struct `MarkupContent`: `kind` defaults to Markdown, `value` to the empty string. -/
structure MarkupContent where
  kind : String := MarkupKind.Markdown
  value : String := ""
deriving DecidableEq

/-- Modelled from the spec: the type `lsRange` (declared outside this file), a start and an
end position; each position is a line and a character offset. -/
structure lsRange where
  startLine : Nat
  startCharacter : Nat
  endLine : Nat
  endCharacter : Nat
deriving DecidableEq

/-- The struct `Hover`: the accumulated contents and the optional range. -/
structure Hover where
  contents : MarkupContent := {}
  range : Option lsRange := none
deriving DecidableEq

/-- Modelled from the spec: the enumeration `LanguageId` (declared outside this file), the
tags C, C++, Objective-C, Objective-C++ and one value for every other language. -/
inductive LanguageId where
  | C
  | Cpp
  | ObjC
  | ObjCpp
  | Other
deriving DecidableEq

/-- Modelled from the spec: the enumeration `Kind` of a symbol (declared outside this file). -/
inductive Kind where
  | Invalid
  | File
  | Type
  | Func
  | Var
deriving DecidableEq

/-- Modelled from the spec: the `spell` location of a definition (declared outside this
file); the scan only reads its `file_id`. -/
structure Spell where
  file_id : Int
deriving DecidableEq

/-- Modelled from the spec: one definition of an entity (declared outside this file), with
the four fields the scan reads. Empty text is the empty string. -/
structure Def where
  comments : String := ""
  hover : String := ""
  detailed_name : String := ""
  spell : Option Spell := none
deriving DecidableEq

/-- A candidate symbol at the cursor, together with what the handler reads for it:
`ls_range` is the result of `getLsRange` for `sym.range`, `entity` is the list `entity.def`
of the entity that `withEntity` hands to its callback (`none` when it calls nothing),
`type_size` is `db->getType(sym.usr).type_size`. -/
structure SymbolRef where
  ls_range : Option lsRange
  kind : Kind
  entity : Option (List Def)
  type_size : Nat
deriving DecidableEq

/-! ## `Hover::add` -/

/-- The method `Hover::add_separator`. -/
def Hover.add_separator (h : Hover) : Hover :=
  if h.contents.value ≠ "" then
    let h1 : Hover := { h with contents := { h.contents with value := h.contents.value ++ "\n___\n" } }
    { h1 with contents := { h1.contents with kind := MarkupKind.Markdown } }
  else h

/-- The method `Hover::add(MarkupContent const &)`. -/
def Hover.add (h : Hover) (m : MarkupContent) : Hover :=
  let h1 : Hover := { h with contents := { h.contents with kind := m.kind } }
  let h2 : Hover := h1.add_separator
  { h2 with contents := { h2.contents with value := h2.contents.value ++ m.value } }

/-- The method `Hover::add(std::string_view)`. -/
def Hover.addText (h : Hover) (hover : String) : Hover :=
  let h1 : Hover := { h with contents := { h.contents with kind := MarkupKind.PlainText } }
  let h2 : Hover := h1.add_separator
  { h2 with contents := { h2.contents with value := h2.contents.value ++ hover } }

/-! ## The code fence -/

/-- The function `languageIdentifier`. -/
def languageIdentifier (lang : LanguageId) : String :=
  match lang with
  | LanguageId.C => "c"
  | LanguageId.Cpp => "cpp"
  | LanguageId.ObjC => "objective-c"
  | LanguageId.ObjCpp => "objective-cpp"
  | _ => ""

/-- The function `markdown_code`: the string is built by four appends. -/
def markdown_code (lang : LanguageId) (code : String) : String :=
  let str : String := "```"
  let str := str ++ languageIdentifier lang
  let str := str ++ "\n"
  let str := str ++ code
  let str := str ++ "\n```"
  str

/-! ## `getHover` -/

/-- The two locals of `getHover` that the loop over `entity.def` updates. -/
structure ScanState where
  comments : Option String := none
  hover : Option MarkupContent := none
deriving DecidableEq

/-- The candidate text `s` of a definition: `d.hover` if non-empty, else `d.detailed_name`
if non-empty, else the null pointer. -/
def candidateText (d : Def) : Option String :=
  if d.hover ≠ "" then some d.hover
  else if d.detailed_name ≠ "" then some d.detailed_name
  else none

/-- One iteration of the loop `for (auto &d : entity.def)` of `getHover`; the second
component says whether the iteration ended in `break`. -/
def getHover.body (lang : LanguageId) (file_id : Int) (st : ScanState) (d : Def) :
    ScanState × Bool :=
  let comments : Option String :=
    if st.comments = none ∧ d.comments ≠ "" then some d.comments else st.comments
  match d.spell with
  | none => ({ comments := comments, hover := st.hover }, false)
  | some spell =>
    let comments : Option String := if d.comments ≠ "" then some d.comments else comments
    let hover : Option MarkupContent :=
      match candidateText d with
      | none => st.hover
      | some s =>
        match st.hover with
        | none => some { kind := MarkupKind.Markdown, value := markdown_code lang s }
        | some h =>
          if s.utf8ByteSize > h.value.utf8ByteSize then some { h with value := s }
          else some h
    ({ comments := comments, hover := hover }, decide (spell.file_id = file_id))

/-- The loop `for (auto &d : entity.def)` of `getHover`. -/
def getHover.loop (lang : LanguageId) (file_id : Int) : List Def → ScanState → ScanState
  | [], st => st
  | d :: rest, st =>
    match getHover.body lang file_id st d with
    | (st1, true) => st1
    | (st1, false) => getHover.loop lang file_id rest st1

/-- The fallback after the loop: `if (!hover && entity.def.size())`. -/
def getHover.fallback (lang : LanguageId) (defs : List Def) (hover : Option MarkupContent) :
    Option MarkupContent :=
  match hover, defs with
  | none, d :: _ =>
    let h : MarkupContent := {}
    if d.hover ≠ "" then some { h with value := markdown_code lang d.hover }
    else if d.detailed_name ≠ "" then some { h with value := markdown_code lang d.detailed_name }
    else some h
  | hover, _ => hover

/-- The function `getHover`: the pair `(hover, ls_comments)` for the entity of a symbol. -/
def getHover (lang : LanguageId) (entity : Option (List Def)) (file_id : Int) :
    Option MarkupContent × Option MarkupContent :=
  match entity with
  | none => (none, none)
  | some defs =>
    let st := getHover.loop lang file_id defs {}
    let hover := getHover.fallback lang defs st.hover
    let ls_comments : Option MarkupContent :=
      match st.comments with
      | some comments => some { kind := MarkupKind.Markdown, value := comments }
      | none => none
    (hover, ls_comments)

/-! ## `MessageHandler::textDocument_hover` -/

/-- The body of `if (comments || hover)` in the candidate loop, up to its `break`. -/
def textDocument_hover.fill (result : Hover) (ls_range : lsRange)
    (hover comments : Option MarkupContent) (sym : SymbolRef) : Hover :=
  let result : Hover := { result with range := some ls_range }
  let result : Hover := match comments with
    | some c => result.add c
    | none => result
  let result : Hover := match hover with
    | some h => result.add h
    | none => result
  if sym.kind = Kind.Type then
    let size : Nat := sym.type_size % 4294967296
    if size ≠ 0 then result.addText ("sizeof: " ++ toString size) else result
  else result

/-- The loop `for (SymbolRef sym : findSymbolsAtLocation(...))`. -/
def textDocument_hover.loop (lang : LanguageId) (file_id : Int) :
    List SymbolRef → Hover → Hover
  | [], result => result
  | sym :: rest, result =>
    match sym.ls_range with
    | none => textDocument_hover.loop lang file_id rest result
    | some ls_range =>
      match getHover lang sym.entity file_id with
      | (hover, comments) =>
        if comments.isSome ∨ hover.isSome then
          textDocument_hover.fill result ls_range hover comments sym
        else textDocument_hover.loop lang file_id rest result

/-- The handler `MessageHandler::textDocument_hover`, from `Hover result;` to the value
passed to `reply`: `lang` is `file->def->language`, `file_id` is `file->id`, `syms` is the
list returned by `findSymbolsAtLocation`. -/
def textDocument_hover (lang : LanguageId) (file_id : Int) (syms : List SymbolRef) : Hover :=
  textDocument_hover.loop lang file_id syms {}

/-! ## Sequences of `Hover::add` calls -/

/-- One call of `Hover::add`: the block form or the plain-text form. -/
inductive AddCall where
  | block (m : MarkupContent)
  | text (s : String)
deriving DecidableEq

/-- The segment value a call appends. -/
def AddCall.value : AddCall → String
  | AddCall.block m => m.value
  | AddCall.text s => s

/-- Performs one call on an accumulator. -/
def Hover.addCall (h : Hover) : AddCall → Hover
  | AddCall.block m => h.add m
  | AddCall.text s => h.addText s

/-- Performs a sequence of calls, first call first. -/
def Hover.addCalls (h : Hover) (calls : List AddCall) : Hover :=
  calls.foldl Hover.addCall h

/-- The language tag of a fence as the specification words it. -/
def specTag : LanguageId → String
  | LanguageId.C => "c"
  | LanguageId.Cpp => "cpp"
  | LanguageId.ObjC => "objective-c"
  | LanguageId.ObjCpp => "objective-cpp"
  | LanguageId.Other => ""

/-- Says whether a definition has a spell whose `file_id` is the given file. -/
def spelledIn (file_id : Int) (d : Def) : Bool :=
  match d.spell with
  | some spell => decide (spell.file_id = file_id)
  | none => false

/-- The definitions the loop of `getHover` visits: those up to and including the first one
that has a spell in the given file, or all of them if there is none. -/
def scanned (file_id : Int) : List Def → List Def
  | [] => []
  | d :: rest => if spelledIn file_id d then [d] else d :: scanned file_id rest

/-- The comments as the specification words them, over the scanned definitions: those of the
last definition that has a spell and non-empty comments; if there is none, those of the
first definition with non-empty comments; if there is none, nothing. -/
def specComments (ds : List Def) : Option String :=
  match (ds.filter (fun d => d.spell.isSome && decide (d.comments ≠ ""))).getLast? with
  | some d => some d.comments
  | none =>
    match ds.find? (fun d => decide (d.comments ≠ "")) with
    | some d => some d.comments
    | none => none

/-- The response for a chosen candidate before any size annotation: the range, then the
comments block if present, then the hover block if present, added to a fresh accumulator. -/
def hoverBlocks (ls_range : lsRange) (hover comments : Option MarkupContent) : Hover :=
  let result : Hover := { range := some ls_range }
  let result : Hover := match comments with
    | some c => result.add c
    | none => result
  match hover with
  | some h => result.add h
  | none => result

/-- The comments of `specComments` when the scan starts with the running comments `c0`:
`c0`, when present, stands before the first definition with non-empty comments. -/
def commentsFrom (c0 : Option String) (ds : List Def) : Option String :=
  match (ds.filter (fun d => d.spell.isSome && decide (d.comments ≠ ""))).getLast? with
  | some d => some d.comments
  | none =>
    match c0 with
    | some c => some c
    | none =>
      match ds.find? (fun d => decide (d.comments ≠ "")) with
      | some d => some d.comments
      | none => none

theorem append_ne_empty_left {a : String} (b : String) (ha : a ≠ "") : a ++ b ≠ "" := by
  intro h
  apply ha
  have hd : (a ++ b).data = [] := by rw [h]
  rw [String.data_append] at hd
  exact String.ext (List.append_eq_nil.mp hd).1

theorem append_ne_empty_right (a : String) {b : String} (hb : b ≠ "") : a ++ b ≠ "" := by
  intro h
  apply hb
  have hd : (a ++ b).data = [] := by rw [h]
  rw [String.data_append] at hd
  exact String.ext (List.append_eq_nil.mp hd).2

theorem markdown_code_ne_empty (lang : LanguageId) (code : String) :
    markdown_code lang code ≠ "" := by
  unfold markdown_code
  exact append_ne_empty_right _ (by decide)

/-! ## The accumulator -/

theorem add_contents_of_empty (h : Hover) (m : MarkupContent) (hv : h.contents.value = "") :
    (h.add m).contents = ⟨m.kind, m.value⟩ := by
  simp [Hover.add, Hover.add_separator, hv]

theorem add_contents_of_ne (h : Hover) (m : MarkupContent) (hv : h.contents.value ≠ "") :
    (h.add m).contents = ⟨MarkupKind.Markdown, h.contents.value ++ "\n___\n" ++ m.value⟩ := by
  simp [Hover.add, Hover.add_separator, hv]

theorem addText_contents_of_empty (h : Hover) (t : String) (hv : h.contents.value = "") :
    (h.addText t).contents = ⟨MarkupKind.PlainText, t⟩ := by
  simp [Hover.addText, Hover.add_separator, hv]

theorem addText_contents_of_ne (h : Hover) (t : String) (hv : h.contents.value ≠ "") :
    (h.addText t).contents = ⟨MarkupKind.Markdown, h.contents.value ++ "\n___\n" ++ t⟩ := by
  simp [Hover.addText, Hover.add_separator, hv]

theorem add_range (h : Hover) (m : MarkupContent) : (h.add m).range = h.range := by
  unfold Hover.add Hover.add_separator
  by_cases hv : h.contents.value = "" <;> simp [hv]

theorem addText_range (h : Hover) (t : String) : (h.addText t).range = h.range := by
  unfold Hover.addText Hover.add_separator
  by_cases hv : h.contents.value = "" <;> simp [hv]

/-- C7: adding a block `{kind k, value x}` to a fresh accumulator gives the contents value
exactly `x`, with no leading separator, and the contents kind `k`; the range stays absent. -/
theorem add_on_fresh (k x : String) :
    (({} : Hover).add ⟨k, x⟩).contents.value = x ∧
    (({} : Hover).add ⟨k, x⟩).contents.kind = k ∧
    (({} : Hover).add ⟨k, x⟩).range = none ∧
    (({} : Hover).add ⟨MarkupKind.PlainText, "X"⟩).contents.value = "X" := by
  refine ⟨?_, ?_, ?_, by decide⟩
  · rw [add_contents_of_empty _ _ rfl]
  · rw [add_contents_of_empty _ _ rfl]
  · rw [add_range]

/-- C5: on an accumulator whose value `v` is non-empty, `Hover::add` of a block of any kind
with value `w`, and `Hover::add` of a plain text `w`, both give the value
`v ++ "\n___\n" ++ w` and the kind Markdown, and the value stays non-empty, so no later add
demotes the kind. Two blocks of any kinds with values `a` (non-empty) and `b` added to a
fresh accumulator give `a ++ "\n___\n" ++ b` with kind Markdown. -/
theorem add_after_nonempty (h : Hover) (m : MarkupContent) (w : String)
    (hv : h.contents.value ≠ "") :
    (h.add m).contents = ⟨MarkupKind.Markdown, h.contents.value ++ "\n___\n" ++ m.value⟩ ∧
    (h.addText w).contents = ⟨MarkupKind.Markdown, h.contents.value ++ "\n___\n" ++ w⟩ ∧
    (h.add m).contents.value ≠ "" ∧ (h.addText w).contents.value ≠ "" ∧
    (∀ k₁ k₂ a b : String, a ≠ "" →
      ((({} : Hover).add ⟨k₁, a⟩).add ⟨k₂, b⟩).contents
        = ⟨MarkupKind.Markdown, a ++ "\n___\n" ++ b⟩) := by
  refine ⟨add_contents_of_ne h m hv, addText_contents_of_ne h w hv, ?_, ?_, ?_⟩
  · rw [add_contents_of_ne h m hv]
    exact append_ne_empty_left _ (append_ne_empty_left _ hv)
  · rw [addText_contents_of_ne h w hv]
    exact append_ne_empty_left _ (append_ne_empty_left _ hv)
  · intro k₁ k₂ a b ha
    have h1 : (({} : Hover).add ⟨k₁, a⟩).contents = ⟨k₁, a⟩ := add_contents_of_empty _ _ rfl
    have h2 : (({} : Hover).add ⟨k₁, a⟩).contents.value ≠ "" := by rw [h1]; exact ha
    rw [add_contents_of_ne _ _ h2, h1]

/-- C5, at the accumulator holding the plain-text block "A" and the plain-text block "B". -/
theorem add_after_nonempty_witness :
    ((({} : Hover).add ⟨MarkupKind.PlainText, "A"⟩).add ⟨MarkupKind.PlainText, "B"⟩).contents
      = ⟨MarkupKind.Markdown, "A\n___\nB"⟩ :=
  (add_after_nonempty (({} : Hover).add ⟨MarkupKind.PlainText, "A"⟩)
    ⟨MarkupKind.PlainText, "B"⟩ "B" (by decide)).1

/-- C6, as stated, fails: a plain text added after the Markdown block "A" leaves the kind
Markdown, not PlainText. -/
theorem addText_kind_counterexample :
    ((({} : Hover).add ⟨MarkupKind.Markdown, "A"⟩).addText "sizeof: 8").contents.kind
      ≠ MarkupKind.PlainText ∧
    ((({} : Hover).add ⟨MarkupKind.Markdown, "A"⟩).addText "sizeof: 8").contents
      = ⟨MarkupKind.Markdown, "A\n___\nsizeof: 8"⟩ := by
  decide

/-- C6, amended: after `Hover::add(std::string_view)` of a text `t` the kind is PlainText
when the value was empty before the call, and Markdown when it was not; in the second case
the separator is written before `t`. -/
theorem addText_kind (h : Hover) (t : String) :
    (h.addText t).contents.kind
      = (if h.contents.value = "" then MarkupKind.PlainText else MarkupKind.Markdown) ∧
    (h.addText t).contents.value
      = (if h.contents.value = "" then t else h.contents.value ++ "\n___\n" ++ t) := by
  by_cases hv : h.contents.value = ""
  · rw [addText_contents_of_empty h t hv]; simp [hv]
  · rw [addText_contents_of_ne h t hv]; simp [hv]

/-- C8: `markdown_code(L, c)` is three backticks, the tag of `L`, a newline, `c`, a newline
and three backticks, where the tag is "c", "cpp", "objective-c", "objective-cpp" for the
four known languages and empty for any other; C++ and "int x;" give the fence tagged cpp. -/
theorem markdown_code_eq (L : LanguageId) (c : String) :
    markdown_code L c = "```" ++ specTag L ++ "\n" ++ c ++ "\n```" ∧
    markdown_code LanguageId.Cpp "int x;" = "```cpp\nint x;\n```" := by
  refine ⟨?_, by decide⟩
  cases L <;> rfl

/-! ## Sequences of calls -/

theorem addCall_value_of_empty (h : Hover) (c : AddCall) (hv : h.contents.value = "") :
    (h.addCall c).contents.value = c.value := by
  cases c with
  | block m => simp [Hover.addCall, AddCall.value, add_contents_of_empty h m hv]
  | text t => simp [Hover.addCall, AddCall.value, addText_contents_of_empty h t hv]

theorem addCall_value_of_ne (h : Hover) (c : AddCall) (hv : h.contents.value ≠ "") :
    (h.addCall c).contents.value = h.contents.value ++ "\n___\n" ++ c.value := by
  cases c with
  | block m => simp [Hover.addCall, AddCall.value, add_contents_of_ne h m hv]
  | text t => simp [Hover.addCall, AddCall.value, addText_contents_of_ne h t hv]

theorem addCalls_value_of_ne (calls : List AddCall) :
    ∀ h : Hover, h.contents.value ≠ "" →
      (h.addCalls calls).contents.value
        = String.intercalate.go h.contents.value "\n___\n" (calls.map AddCall.value) := by
  induction calls with
  | nil => intro h _; simp [Hover.addCalls, String.intercalate.go]
  | cons c rest ih =>
    intro h hv
    have hstep := addCall_value_of_ne h c hv
    have hne : (h.addCall c).contents.value ≠ "" := by
      rw [hstep]; exact append_ne_empty_left _ (append_ne_empty_left _ hv)
    have := ih (h.addCall c) hne
    simp only [Hover.addCalls, List.foldl_cons, List.map_cons, String.intercalate.go] at this ⊢
    rw [this, hstep]

theorem addCalls_value_of_empty (calls : List AddCall) :
    ∀ h : Hover, h.contents.value = "" →
      (h.addCalls calls).contents.value
        = String.intercalate "\n___\n"
            ((calls.map AddCall.value).dropWhile (fun s => decide (s = ""))) := by
  induction calls with
  | nil => intro h hv; simp [Hover.addCalls, String.intercalate, hv]
  | cons c rest ih =>
    intro h hv
    have hstep := addCall_value_of_empty h c hv
    by_cases hc : c.value = ""
    · have := ih (h.addCall c) (by rw [hstep]; exact hc)
      simp only [Hover.addCalls, List.foldl_cons, List.map_cons] at this ⊢
      rw [this, List.dropWhile_cons]
      simp [hc]
    · have hne : (h.addCall c).contents.value ≠ "" := by rw [hstep]; exact hc
      have := addCalls_value_of_ne rest (h.addCall c) hne
      simp only [Hover.addCalls, List.foldl_cons, List.map_cons] at this ⊢
      rw [this, List.dropWhile_cons, hstep]
      simp [hc, String.intercalate]

/-- C4, as stated, fails: the block "A" followed by an empty plain text leaves the value
"A\n___\n", with a trailing separator, and not the join "A" of the non-empty segments. -/
theorem addCalls_join_counterexample :
    (({} : Hover).addCalls [AddCall.block ⟨MarkupKind.Markdown, "A"⟩, AddCall.text ""]).contents.value
      = "A\n___\n" ∧
    (({} : Hover).addCalls [AddCall.block ⟨MarkupKind.Markdown, "A"⟩, AddCall.text ""]).contents.value
      ≠ String.intercalate "\n___\n"
          (([AddCall.block ⟨MarkupKind.Markdown, "A"⟩, AddCall.text ""].map AddCall.value).filter
            (fun s => decide (s ≠ ""))) := by
  decide

/-- C4, amended: after any sequence of `Hover::add` calls on a fresh accumulator the value
is the join by "\n___\n" of the segment values from the first non-empty one on; empty
segments before it leave no trace, and no separator leads the value. -/
theorem addCalls_value (calls : List AddCall) :
    (({} : Hover).addCalls calls).contents.value
      = String.intercalate "\n___\n"
          ((calls.map AddCall.value).dropWhile (fun s => decide (s = ""))) :=
  addCalls_value_of_empty calls {} rfl

/-! ## The definition scan -/

theorem candidateText_some {d : Def} {t : String} (h : candidateText d = some t) :
    (t = d.hover ∨ t = d.detailed_name) ∧ t ≠ "" := by
  unfold candidateText at h
  by_cases h1 : d.hover = ""
  · by_cases h2 : d.detailed_name = ""
    · simp [h1, h2] at h
    · simp [h1, h2] at h
      subst h
      exact ⟨Or.inr rfl, h2⟩
  · simp [h1] at h
    subst h
    exact ⟨Or.inl rfl, h1⟩

theorem body_snd (lang : LanguageId) (file_id : Int) (st : ScanState) (d : Def) :
    (getHover.body lang file_id st d).2 = spelledIn file_id d := by
  unfold getHover.body spelledIn
  cases d.spell <;> rfl

theorem loop_cons_break (lang : LanguageId) (file_id : Int) (st : ScanState) (d : Def)
    (rest : List Def) (h : spelledIn file_id d = true) :
    getHover.loop lang file_id (d :: rest) st = (getHover.body lang file_id st d).1 := by
  have hb := body_snd lang file_id st d
  rw [h] at hb
  rw [getHover.loop]
  cases hp : getHover.body lang file_id st d with
  | mk st1 b =>
    rw [hp] at hb
    simp only at hb
    subst hb
    rfl

theorem loop_cons_continue (lang : LanguageId) (file_id : Int) (st : ScanState) (d : Def)
    (rest : List Def) (h : spelledIn file_id d = false) :
    getHover.loop lang file_id (d :: rest) st
      = getHover.loop lang file_id rest (getHover.body lang file_id st d).1 := by
  have hb := body_snd lang file_id st d
  rw [h] at hb
  rw [getHover.loop]
  cases hp : getHover.body lang file_id st d with
  | mk st1 b =>
    rw [hp] at hb
    simp only at hb
    subst hb
    rfl

/-- A property of the scan state that every iteration over a definition of the list keeps
holds after the loop. -/
theorem loop_invariant (lang : LanguageId) (file_id : Int) (P : ScanState → Prop)
    (ds : List Def)
    (hstep : ∀ st d, d ∈ ds → P st → P (getHover.body lang file_id st d).1) :
    ∀ st, P st → P (getHover.loop lang file_id ds st) := by
  induction ds with
  | nil => intro st h; simpa [getHover.loop] using h
  | cons d rest ih =>
    intro st h
    have h1 := hstep st d (List.mem_cons_self d rest) h
    cases hs : spelledIn file_id d with
    | true => rw [loop_cons_break lang file_id st d rest hs]; exact h1
    | false =>
      rw [loop_cons_continue lang file_id st d rest hs]
      exact ih (fun st' d' hd' hp => hstep st' d' (List.mem_cons_of_mem d hd') hp) _ h1

theorem loop_take (lang : LanguageId) (file_id : Int) (ds : List Def) :
    ∀ (i : Nat) (d : Def) (st : ScanState), ds[i]? = some d → spelledIn file_id d = true →
      (∀ j e, j < i → ds[j]? = some e → spelledIn file_id e = false) →
      getHover.loop lang file_id ds st = getHover.loop lang file_id (ds.take (i + 1)) st := by
  induction ds with
  | nil => intro i d st hd; simp at hd
  | cons a rest ih =>
    intro i d st hd hs hfirst
    cases i with
    | zero =>
      simp at hd
      subst hd
      rw [List.take_succ_cons, loop_cons_break lang file_id st a rest hs,
        loop_cons_break lang file_id st a _ hs]
    | succ k =>
      have ha : spelledIn file_id a = false := hfirst 0 a (Nat.succ_pos k) (by simp)
      rw [List.take_succ_cons, loop_cons_continue lang file_id st a rest ha,
        loop_cons_continue lang file_id st a _ ha]
      apply ih k d _ (by simpa using hd) hs
      intro j e hj he
      exact hfirst (j + 1) e (Nat.succ_lt_succ hj) (by simpa using he)

theorem fallback_take (lang : LanguageId) (ds : List Def) (i : Nat)
    (hover : Option MarkupContent) :
    getHover.fallback lang (ds.take (i + 1)) hover = getHover.fallback lang ds hover := by
  cases ds with
  | nil => rfl
  | cons a rest => cases hover <;> simp [getHover.fallback]

/-- C10: if `ds[i]` is the first definition that has a spell in the current file `f`, then
`getHover` on `ds` returns the same pair as `getHover` on the prefix `ds[0..i]`. -/
theorem getHover_stops_at_local (lang : LanguageId) (f : Int) (ds : List Def) (i : Nat) (d : Def)
    (hd : ds[i]? = some d) (hs : spelledIn f d = true)
    (hfirst : ∀ j e, j < i → ds[j]? = some e → spelledIn f e = false) :
    getHover lang (some ds) f = getHover lang (some (ds.take (i + 1))) f := by
  simp only [getHover]
  rw [← loop_take lang f ds i d {} hd hs hfirst, fallback_take]

/-- C10, on three definitions whose second is the first one spelled in file 0: the third
definition, with a longer text and comments, does not change the result. -/
theorem getHover_stops_at_local_witness :
    getHover LanguageId.Cpp
        (some [{ hover := "int f()", spell := some ⟨1⟩ },
               { comments := "doc", hover := "int f(int)", spell := some ⟨0⟩ },
               { comments := "other", hover := "int f(int x = 0, int y = 1)", spell := some ⟨0⟩ }]) 0
      = getHover LanguageId.Cpp
        (some [{ hover := "int f()", spell := some ⟨1⟩ },
               { comments := "doc", hover := "int f(int)", spell := some ⟨0⟩ }]) 0 :=
  getHover_stops_at_local LanguageId.Cpp 0 _ 1
    { comments := "doc", hover := "int f(int)", spell := some ⟨0⟩ } rfl (by decide)
    (by
      intro j e hj he
      have hj0 : j = 0 := by omega
      subst hj0
      simp at he
      subst he
      decide)

/-- C1, the code at two inputs where the claim asks for the fence of the longest text.
With two spelled definitions "int f()" and "int f(int x=0)", the second in the current
file, the 14 bytes of the second text are compared with the 18 bytes of the fenced first
text, so the shorter text is kept. With "a" and a text longer than the fence of "a", the
second text replaces the value without a fence. -/
theorem getHover_longest_fails :
    (getHover LanguageId.Cpp
        (some [{ hover := "int f()", spell := some ⟨1⟩ },
               { hover := "int f(int x=0)", spell := some ⟨0⟩ }]) 0).1
      = some ⟨MarkupKind.Markdown, "```cpp\nint f()\n```"⟩ ∧
    (getHover LanguageId.Cpp
        (some [{ hover := "a", spell := some ⟨1⟩ },
               { hover := "int f(int x=0)", spell := some ⟨0⟩ }]) 0).1
      = some ⟨MarkupKind.Markdown, "int f(int x=0)"⟩ ∧
    markdown_code LanguageId.Cpp "int f(int x=0)" = "```cpp\nint f(int x=0)\n```" := by
  decide

theorem body_comments_ne (lang : LanguageId) (file_id : Int) (st : ScanState) (d : Def)
    (hst : ∀ c, st.comments = some c → c ≠ "") :
    ∀ c, (getHover.body lang file_id st d).1.comments = some c → c ≠ "" := by
  intro c hc
  by_cases h1 : d.comments = ""
  · cases hsp : d.spell with
    | none =>
      simp [getHover.body, hsp, h1] at hc
      exact hst c hc
    | some sp =>
      simp [getHover.body, hsp, h1] at hc
      exact hst c hc
  · cases hsp : d.spell with
    | none =>
      cases hco : st.comments with
      | none =>
        simp [getHover.body, hsp, h1, hco] at hc
        subst hc
        exact h1
      | some c0 =>
        simp [getHover.body, hsp, h1, hco] at hc
        subst hc
        exact hst c0 hco
    | some sp =>
      simp [getHover.body, hsp, h1] at hc
      subst hc
      exact h1

theorem body_hover_ne (lang : LanguageId) (file_id : Int) (st : ScanState) (d : Def)
    (hst : ∀ h, st.hover = some h → h.value ≠ "") :
    ∀ h, (getHover.body lang file_id st d).1.hover = some h → h.value ≠ "" := by
  intro h hh
  cases hsp : d.spell with
  | none =>
    simp only [getHover.body, hsp] at hh
    exact hst h hh
  | some sp =>
    cases hc : candidateText d with
    | none =>
      simp only [getHover.body, hsp, hc] at hh
      exact hst h hh
    | some s =>
      cases ho : st.hover with
      | none =>
        simp only [getHover.body, hsp, hc, ho, Option.some.injEq] at hh
        subst hh
        exact markdown_code_ne_empty lang s
      | some h0 =>
        simp only [getHover.body, hsp, hc, ho] at hh
        by_cases hgt : s.utf8ByteSize > h0.value.utf8ByteSize
        · simp only [hgt, if_true, Option.some.injEq] at hh
          subst hh
          exact (candidateText_some hc).2
        · simp only [hgt, if_false, Option.some.injEq] at hh
          subst hh
          exact hst h0 ho

/-- A comments block returned by `getHover` has a non-empty value. -/
theorem getHover_comments_ne (lang : LanguageId) (entity : Option (List Def)) (f : Int)
    (c : MarkupContent) (hc : (getHover lang entity f).2 = some c) : c.value ≠ "" := by
  cases entity with
  | none => simp [getHover] at hc
  | some ds =>
    have hinv := loop_invariant lang f (fun st => ∀ c, st.comments = some c → c ≠ "") ds
      (fun st d _ hst => body_comments_ne lang f st d hst) {}
      (by intro c0 h0; simp at h0)
    simp only [getHover] at hc
    cases hl : (getHover.loop lang f ds {}).comments with
    | none => rw [hl] at hc; simp at hc
    | some c0 =>
      rw [hl] at hc
      simp only [Option.some.injEq] at hc
      subst hc
      exact hinv c0 hl

/-- A hover block returned by `getHover` with the empty value is the default block, made by
the fallback for a first definition that has neither hover nor detailed_name. -/
theorem getHover_hover_empty (lang : LanguageId) (entity : Option (List Def)) (f : Int)
    (h : MarkupContent) (hh : (getHover lang entity f).1 = some h) (hv : h.value = "") :
    h = {} ∧ ∃ d rest, entity = some (d :: rest) ∧ d.hover = "" ∧ d.detailed_name = "" := by
  cases entity with
  | none => simp [getHover] at hh
  | some ds =>
    have hinv := loop_invariant lang f (fun st => ∀ h, st.hover = some h → h.value ≠ "") ds
      (fun st d _ hst => body_hover_ne lang f st d hst) {}
      (by intro h0 h0h; simp at h0h)
    simp only [getHover] at hh
    cases hl : (getHover.loop lang f ds {}).hover with
    | some h0 =>
      rw [hl] at hh
      have hfb : getHover.fallback lang ds (some h0) = some h0 := by
        cases ds <;> rfl
      rw [hfb, Option.some.injEq] at hh
      subst hh
      exact absurd hv (hinv h0 hl)
    | none =>
      rw [hl] at hh
      cases ds with
      | nil => simp [getHover.fallback] at hh
      | cons d rest =>
        simp only [getHover.fallback] at hh
        by_cases h1 : d.hover = ""
        · by_cases h2 : d.detailed_name = ""
          · simp [h1, h2] at hh
            subst hh
            exact ⟨rfl, d, rest, rfl, h1, h2⟩
          · simp [h1, h2] at hh
            subst hh
            exact absurd hv (markdown_code_ne_empty lang _)
        · simp [h1] at hh
          subst hh
          exact absurd hv (markdown_code_ne_empty lang _)

/-! ## The candidate loop -/

theorem add_value_ne (h : Hover) (m : MarkupContent)
    (hne : h.contents.value ≠ "" ∨ m.value ≠ "") : (h.add m).contents.value ≠ "" := by
  by_cases hv : h.contents.value = ""
  · rw [add_contents_of_empty h m hv]
    rcases hne with h1 | h1
    · exact absurd hv h1
    · exact h1
  · rw [add_contents_of_ne h m hv]
    exact append_ne_empty_left _ (append_ne_empty_left _ hv)

theorem addText_value_ne (h : Hover) (t : String)
    (hne : h.contents.value ≠ "" ∨ t ≠ "") : (h.addText t).contents.value ≠ "" := by
  by_cases hv : h.contents.value = ""
  · rw [addText_contents_of_empty h t hv]
    rcases hne with h1 | h1
    · exact absurd hv h1
    · exact h1
  · rw [addText_contents_of_ne h t hv]
    exact append_ne_empty_left _ (append_ne_empty_left _ hv)

theorem fill_range (result : Hover) (r : lsRange) (hover comments : Option MarkupContent)
    (sym : SymbolRef) : (textDocument_hover.fill result r hover comments sym).range = some r := by
  unfold textDocument_hover.fill
  cases comments <;> cases hover <;> simp only [] <;> split_ifs <;>
    simp [add_range, addText_range]

theorem fill_value_ne (result : Hover) (r : lsRange) (hover comments : Option MarkupContent)
    (sym : SymbolRef)
    (hne : (∃ c, comments = some c ∧ c.value ≠ "") ∨ (∃ h, hover = some h ∧ h.value ≠ "")) :
    (textDocument_hover.fill result r hover comments sym).contents.value ≠ "" := by
  have hsize : ∀ x : Hover, x.contents.value ≠ "" →
      (if sym.kind = Kind.Type then
        (if sym.type_size % 4294967296 ≠ 0 then
          x.addText ("sizeof: " ++ toString (sym.type_size % 4294967296)) else x)
       else x).contents.value ≠ "" := by
    intro x hx
    split_ifs
    · exact addText_value_ne x _ (Or.inl hx)
    · exact hx
    · exact hx
  unfold textDocument_hover.fill
  apply hsize
  rcases hne with ⟨c, hc, hcv⟩ | ⟨h, hh, hhv⟩
  · subst hc
    cases hover with
    | none => exact add_value_ne _ c (Or.inr hcv)
    | some h => exact add_value_ne _ h (Or.inl (add_value_ne _ c (Or.inr hcv)))
  · subst hh
    cases comments with
    | none => exact add_value_ne _ h (Or.inr hhv)
    | some c => exact add_value_ne _ h (Or.inr hhv)

theorem loop_skip (lang : LanguageId) (f : Int) (sym : SymbolRef) (rest : List SymbolRef)
    (result : Hover)
    (h : sym.ls_range = none ∨ getHover lang sym.entity f = (none, none)) :
    textDocument_hover.loop lang f (sym :: rest) result
      = textDocument_hover.loop lang f rest result := by
  rw [textDocument_hover.loop]
  cases hr : sym.ls_range with
  | none => rfl
  | some r =>
    rcases h with h | h
    · rw [hr] at h; cases h
    · simp [h]

theorem loop_pick (lang : LanguageId) (f : Int) (sym : SymbolRef) (rest : List SymbolRef)
    (result : Hover) (r : lsRange) (hr : sym.ls_range = some r)
    (h : getHover lang sym.entity f ≠ (none, none)) :
    textDocument_hover.loop lang f (sym :: rest) result
      = textDocument_hover.fill result r (getHover lang sym.entity f).1
          (getHover lang sym.entity f).2 sym := by
  rw [textDocument_hover.loop]
  simp only [hr]
  cases hg : getHover lang sym.entity f with
  | mk hover comments =>
    rw [hg] at h
    have : comments.isSome ∨ hover.isSome := by
      cases hover with
      | some _ => exact Or.inr rfl
      | none =>
        cases comments with
        | some _ => exact Or.inl rfl
        | none => exact absurd rfl h
    simp [this]

theorem loop_append_pick (lang : LanguageId) (f : Int) (c : SymbolRef) (post : List SymbolRef)
    (r : lsRange) (hr : c.ls_range = some r) (hc : getHover lang c.entity f ≠ (none, none)) :
    ∀ (pre : List SymbolRef) (result : Hover),
      (∀ p ∈ pre, p.ls_range = none ∨ getHover lang p.entity f = (none, none)) →
      textDocument_hover.loop lang f (pre ++ c :: post) result
        = textDocument_hover.fill result r (getHover lang c.entity f).1
            (getHover lang c.entity f).2 c := by
  intro pre
  induction pre with
  | nil => intro result _; exact loop_pick lang f c post result r hr hc
  | cons p rest ih =>
    intro result hpre
    rw [List.cons_append, loop_skip lang f p _ result (hpre p (List.mem_cons_self p rest))]
    exact ih result (fun q hq => hpre q (List.mem_cons_of_mem p hq))

/-- The loop either passes over every candidate and leaves the result as it was, or fills
the result from the first candidate whose range resolves and whose blocks are not both
absent. -/
theorem loop_cases (lang : LanguageId) (f : Int) (syms : List SymbolRef) (result : Hover) :
    ((∀ p ∈ syms, p.ls_range = none ∨ getHover lang p.entity f = (none, none)) ∧
      textDocument_hover.loop lang f syms result = result) ∨
    (∃ sym ∈ syms, ∃ r, sym.ls_range = some r ∧ getHover lang sym.entity f ≠ (none, none) ∧
      textDocument_hover.loop lang f syms result
        = textDocument_hover.fill result r (getHover lang sym.entity f).1
            (getHover lang sym.entity f).2 sym) := by
  induction syms with
  | nil => left; exact ⟨by simp, rfl⟩
  | cons p rest ih =>
    by_cases hp : p.ls_range = none ∨ getHover lang p.entity f = (none, none)
    · rw [loop_skip lang f p rest result hp]
      rcases ih with ⟨hall, heq⟩ | ⟨sym, hsym, r, hr, hg, heq⟩
      · left
        refine ⟨?_, heq⟩
        intro q hq
        rcases List.mem_cons.mp hq with rfl | hq
        · exact hp
        · exact hall q hq
      · right
        exact ⟨sym, List.mem_cons_of_mem p hsym, r, hr, hg, heq⟩
    · right
      have hp' := not_or.mp hp
      cases hr : p.ls_range with
      | none => exact absurd hr hp'.1
      | some r =>
        exact ⟨p, List.mem_cons_self p rest, r, hr, hp'.2, loop_pick lang f p rest result r hr hp'.2⟩

/-- C3, as stated, fails: a candidate whose entity has one definition without any text
gets an empty hover block, so the response has a range and an empty contents value. -/
theorem hover_range_counterexample :
    (textDocument_hover LanguageId.Cpp 0
        [{ ls_range := some ⟨3, 4, 3, 9⟩, kind := Kind.Func, entity := some [{}],
           type_size := 0 }]).range = some ⟨3, 4, 3, 9⟩ ∧
    (textDocument_hover LanguageId.Cpp 0
        [{ ls_range := some ⟨3, 4, 3, 9⟩, kind := Kind.Func, entity := some [{}],
           type_size := 0 }]).contents.value = "" := by
  decide

/-- C3, amended: the response has a range only if its contents value is non-empty or the
range is that of a candidate whose resolver output is only the default hover block with the
empty value, made for an entity whose first definition has neither hover nor detailed_name.
A candidate with no range or with the output (None, None) is passed over: when every
candidate is such, the response is the fresh one, with empty contents and no range. -/
theorem hover_range_only_if (lang : LanguageId) (f : Int) (syms : List SymbolRef) :
    ((textDocument_hover lang f syms).range ≠ none →
      (textDocument_hover lang f syms).contents.value ≠ "" ∨
      ∃ sym ∈ syms, sym.ls_range = (textDocument_hover lang f syms).range ∧
        getHover lang sym.entity f = (some {}, none) ∧
        ∃ d rest, sym.entity = some (d :: rest) ∧ d.hover = "" ∧ d.detailed_name = "") ∧
    ((∀ sym ∈ syms, sym.ls_range = none ∨ getHover lang sym.entity f = (none, none)) →
      textDocument_hover lang f syms = {}) := by
  unfold textDocument_hover
  rcases loop_cases lang f syms {} with ⟨hall, heq⟩ | ⟨sym, hsym, r, hr, hg, heq⟩
  · rw [heq]
    exact ⟨fun h => absurd rfl h, fun _ => rfl⟩
  · refine ⟨fun _ => ?_, fun hall => ?_⟩
    · rw [heq]
      cases hcm : (getHover lang sym.entity f).2 with
      | some c =>
        left
        exact fill_value_ne _ r _ _ sym
          (Or.inl ⟨c, rfl, getHover_comments_ne lang sym.entity f c hcm⟩)
      | none =>
        cases hho : (getHover lang sym.entity f).1 with
        | none =>
          exact absurd (Prod.ext hho hcm) hg
        | some h =>
          by_cases hv : h.value = ""
          · right
            obtain ⟨hdef, d, rest, hent, h1, h2⟩ :=
              getHover_hover_empty lang sym.entity f h hho hv
            refine ⟨sym, hsym, ?_, ?_, d, rest, hent, h1, h2⟩
            · rw [fill_range, hr]
            · rw [← hdef]
              exact Prod.ext hho hcm
          · left
            exact fill_value_ne _ r _ _ sym (Or.inr ⟨h, rfl, hv⟩)
    · rcases hall sym hsym with h | h
      · rw [hr] at h; cases h
      · exact absurd h hg

/-- C3, on two candidates: the first, an entity without definitions, is passed over and
the second, documented and declared as "int x", gives the range, so the value is non-empty
or the block is the empty default one; with the ranged candidate first and the declared
one without a range, every candidate is passed over and the response is the fresh one. -/
theorem hover_range_only_if_witness :
    ((textDocument_hover LanguageId.Cpp 0
        [{ ls_range := some ⟨1, 0, 1, 5⟩, kind := Kind.Var, entity := some [], type_size := 0 },
         { ls_range := some ⟨1, 2, 1, 3⟩, kind := Kind.Var,
           entity := some [{ comments := "doc", hover := "int x", spell := some ⟨0⟩ }],
           type_size := 0 }]).contents.value ≠ "" ∨
      ∃ sym ∈ ([{ ls_range := some ⟨1, 0, 1, 5⟩, kind := Kind.Var, entity := some [],
                  type_size := 0 },
                { ls_range := some ⟨1, 2, 1, 3⟩, kind := Kind.Var,
                  entity := some [{ comments := "doc", hover := "int x", spell := some ⟨0⟩ }],
                  type_size := 0 }] : List SymbolRef),
        sym.ls_range = (textDocument_hover LanguageId.Cpp 0
          [{ ls_range := some ⟨1, 0, 1, 5⟩, kind := Kind.Var, entity := some [],
             type_size := 0 },
           { ls_range := some ⟨1, 2, 1, 3⟩, kind := Kind.Var,
             entity := some [{ comments := "doc", hover := "int x", spell := some ⟨0⟩ }],
             type_size := 0 }]).range ∧
        getHover LanguageId.Cpp sym.entity 0 = (some {}, none) ∧
        ∃ d rest, sym.entity = some (d :: rest) ∧ d.hover = "" ∧ d.detailed_name = "") ∧
    (textDocument_hover LanguageId.Cpp 0
        [{ ls_range := some ⟨1, 0, 1, 5⟩, kind := Kind.Var, entity := some [], type_size := 0 },
         { ls_range := some ⟨1, 2, 1, 3⟩, kind := Kind.Var,
           entity := some [{ comments := "doc", hover := "int x", spell := some ⟨0⟩ }],
           type_size := 0 }]).contents.value = "doc\n___\n```cpp\nint x\n```" ∧
    textDocument_hover LanguageId.Cpp 0
        [{ ls_range := none, kind := Kind.Var,
           entity := some [{ hover := "int x", spell := some ⟨0⟩ }], type_size := 0 },
         { ls_range := some ⟨1, 0, 1, 5⟩, kind := Kind.Var, entity := some [], type_size := 0 }]
      = {} :=
  ⟨(hover_range_only_if LanguageId.Cpp 0
      [{ ls_range := some ⟨1, 0, 1, 5⟩, kind := Kind.Var, entity := some [], type_size := 0 },
       { ls_range := some ⟨1, 2, 1, 3⟩, kind := Kind.Var,
         entity := some [{ comments := "doc", hover := "int x", spell := some ⟨0⟩ }],
         type_size := 0 }]).1 (by decide),
   by decide,
   (hover_range_only_if LanguageId.Cpp 0
      [{ ls_range := none, kind := Kind.Var,
         entity := some [{ hover := "int x", spell := some ⟨0⟩ }], type_size := 0 },
       { ls_range := some ⟨1, 0, 1, 5⟩, kind := Kind.Var, entity := some [], type_size := 0 }]).2
      (by decide)⟩

/-- C9: the response is determined by the first candidate whose range resolves and whose
resolver output is not (None, None): it equals the response for that candidate alone, so no
earlier candidate contributes, its range is that candidate's range, and replacing the later
candidates by any others leaves it unchanged. -/
theorem hover_first_wins (lang : LanguageId) (f : Int) (pre : List SymbolRef) (c : SymbolRef)
    (post : List SymbolRef) (r : lsRange)
    (hpre : ∀ p ∈ pre, p.ls_range = none ∨ getHover lang p.entity f = (none, none))
    (hr : c.ls_range = some r) (hc : getHover lang c.entity f ≠ (none, none)) :
    textDocument_hover lang f (pre ++ c :: post) = textDocument_hover lang f [c] ∧
    (textDocument_hover lang f (pre ++ c :: post)).range = some r ∧
    ∀ post' : List SymbolRef,
      textDocument_hover lang f (pre ++ c :: post')
        = textDocument_hover lang f (pre ++ c :: post) := by
  have key : ∀ (a b : List SymbolRef),
      (∀ p ∈ a, p.ls_range = none ∨ getHover lang p.entity f = (none, none)) →
      textDocument_hover lang f (a ++ c :: b)
        = textDocument_hover.fill {} r (getHover lang c.entity f).1
            (getHover lang c.entity f).2 c := by
    intro a b ha
    unfold textDocument_hover
    exact loop_append_pick lang f c b r hr hc a {} ha
  refine ⟨?_, ?_, ?_⟩
  · rw [key pre post hpre]
    exact (key [] [] (by simp)).symm
  · rw [key pre post hpre, fill_range]
  · intro post'
    rw [key pre post' hpre, key pre post hpre]

/-- C9, on three candidates of which only the second yields output: the response carries
the second candidate's range and is the response for the second candidate alone. -/
theorem hover_first_wins_witness :
    textDocument_hover LanguageId.Cpp 0
        [{ ls_range := some ⟨2, 0, 2, 9⟩, kind := Kind.Func, entity := some [], type_size := 0 },
         { ls_range := some ⟨2, 4, 2, 5⟩, kind := Kind.Var,
           entity := some [{ hover := "int x", spell := some ⟨0⟩ }], type_size := 0 },
         { ls_range := some ⟨2, 0, 2, 1⟩, kind := Kind.Type, entity := none, type_size := 4 }]
      = textDocument_hover LanguageId.Cpp 0
        [{ ls_range := some ⟨2, 4, 2, 5⟩, kind := Kind.Var,
           entity := some [{ hover := "int x", spell := some ⟨0⟩ }], type_size := 0 }] ∧
    (textDocument_hover LanguageId.Cpp 0
        [{ ls_range := some ⟨2, 0, 2, 9⟩, kind := Kind.Func, entity := some [], type_size := 0 },
         { ls_range := some ⟨2, 4, 2, 5⟩, kind := Kind.Var,
           entity := some [{ hover := "int x", spell := some ⟨0⟩ }], type_size := 0 },
         { ls_range := some ⟨2, 0, 2, 1⟩, kind := Kind.Type, entity := none, type_size := 4 }]).range
      = some ⟨2, 4, 2, 5⟩ :=
  ⟨(hover_first_wins LanguageId.Cpp 0
      [{ ls_range := some ⟨2, 0, 2, 9⟩, kind := Kind.Func, entity := some [], type_size := 0 }]
      { ls_range := some ⟨2, 4, 2, 5⟩, kind := Kind.Var,
        entity := some [{ hover := "int x", spell := some ⟨0⟩ }], type_size := 0 }
      [{ ls_range := some ⟨2, 0, 2, 1⟩, kind := Kind.Type, entity := none, type_size := 4 }]
      ⟨2, 4, 2, 5⟩ (by decide) rfl (by decide)).1,
   (hover_first_wins LanguageId.Cpp 0
      [{ ls_range := some ⟨2, 0, 2, 9⟩, kind := Kind.Func, entity := some [], type_size := 0 }]
      { ls_range := some ⟨2, 4, 2, 5⟩, kind := Kind.Var,
        entity := some [{ hover := "int x", spell := some ⟨0⟩ }], type_size := 0 }
      [{ ls_range := some ⟨2, 0, 2, 1⟩, kind := Kind.Type, entity := none, type_size := 4 }]
      ⟨2, 4, 2, 5⟩ (by decide) rfl (by decide)).2.1⟩

/-! ## The scanned definitions -/

theorem spell_ne_none_of_spelledIn {f : Int} {d : Def} (h : spelledIn f d = true) :
    d.spell ≠ none := by
  intro hn
  simp [spelledIn, hn] at h

theorem loop_scanned (lang : LanguageId) (f : Int) (ds : List Def) :
    ∀ st, getHover.loop lang f ds st = getHover.loop lang f (scanned f ds) st := by
  induction ds with
  | nil => intro st; rfl
  | cons d rest ih =>
    intro st
    cases hs : spelledIn f d with
    | true =>
      simp only [scanned, hs, if_true]
      rw [loop_cons_break lang f st d rest hs, loop_cons_break lang f st d [] hs]
    | false =>
      simp only [scanned, hs, Bool.false_eq_true, if_false]
      rw [loop_cons_continue lang f st d rest hs, loop_cons_continue lang f st d _ hs]
      exact ih _

theorem scanned_subset (f : Int) (ds : List Def) : ∀ d ∈ scanned f ds, d ∈ ds := by
  induction ds with
  | nil => intro d hd; simp [scanned] at hd
  | cons a rest ih =>
    intro d hd
    cases hs : spelledIn f a with
    | true =>
      simp only [scanned, hs, if_true, List.mem_singleton] at hd
      subst hd
      exact List.mem_cons_self _ _
    | false =>
      simp only [scanned, hs, Bool.false_eq_true, if_false] at hd
      rcases List.mem_cons.mp hd with h | h
      · subst h; exact List.mem_cons_self _ _
      · exact List.mem_cons_of_mem _ (ih d h)

theorem body_comments_spelled (lang : LanguageId) (f : Int) (st : ScanState) (d : Def)
    (hsp : d.spell ≠ none) (hc : d.comments ≠ "") :
    (getHover.body lang f st d).1.comments = some d.comments := by
  cases h : d.spell with
  | none => exact absurd h hsp
  | some sp => simp [getHover.body, h, hc]

theorem body_hover_none (lang : LanguageId) (f : Int) (st : ScanState) (d : Def)
    (hst : st.hover = none) (hd : d.spell ≠ none → candidateText d = none) :
    (getHover.body lang f st d).1.hover = none := by
  cases h : d.spell with
  | none => simp [getHover.body, h, hst]
  | some sp =>
    have := hd (by simp [h])
    simp [getHover.body, h, this, hst]

theorem candidateText_none_iff (d : Def) :
    candidateText d = none ↔ d.hover = "" ∧ d.detailed_name = "" := by
  unfold candidateText
  by_cases h1 : d.hover = "" <;> by_cases h2 : d.detailed_name = "" <;> simp [h1, h2]

theorem loop_hover_none (lang : LanguageId) (f : Int) (ds : List Def)
    (h : ∀ d ∈ scanned f ds, d.spell ≠ none → d.hover = "" ∧ d.detailed_name = "") :
    (getHover.loop lang f ds {}).hover = none := by
  rw [loop_scanned]
  exact loop_invariant lang f (fun st => st.hover = none) (scanned f ds)
    (fun st d hd hst => body_hover_none lang f st d hst
      (fun hsp => (candidateText_none_iff d).mpr (h d hd hsp))) {} rfl

theorem loop_comments_at_local (lang : LanguageId) (f : Int) (ds : List Def) :
    ∀ (i : Nat) (d : Def) (st : ScanState), ds[i]? = some d → spelledIn f d = true →
      (∀ j e, j < i → ds[j]? = some e → spelledIn f e = false) → d.comments ≠ "" →
      (getHover.loop lang f ds st).comments = some d.comments := by
  induction ds with
  | nil => intro i d st hd; simp at hd
  | cons a rest ih =>
    intro i d st hd hs hfirst hc
    cases i with
    | zero =>
      simp at hd
      subst hd
      rw [loop_cons_break lang f st a rest hs]
      exact body_comments_spelled lang f st a (spell_ne_none_of_spelledIn hs) hc
    | succ k =>
      have ha : spelledIn f a = false := hfirst 0 a (Nat.succ_pos k) (by simp)
      rw [loop_cons_continue lang f st a rest ha]
      apply ih k d _ (by simpa using hd) hs _ hc
      intro j e hj he
      exact hfirst (j + 1) e (Nat.succ_lt_succ hj) (by simpa using he)

/-- C11: if the first definition whose spell is in the current file `f` has non-empty
comments, the comments block returned by `getHover` is the Markdown block with exactly that
definition's comments, whatever the other definitions carry. -/
theorem getHover_comments_local (lang : LanguageId) (f : Int) (ds : List Def) (i : Nat)
    (d : Def) (hd : ds[i]? = some d) (hs : spelledIn f d = true)
    (hfirst : ∀ j e, j < i → ds[j]? = some e → spelledIn f e = false)
    (hc : d.comments ≠ "") :
    (getHover lang (some ds) f).2 = some ⟨MarkupKind.Markdown, d.comments⟩ := by
  simp only [getHover]
  rw [loop_comments_at_local lang f ds i d {} hd hs hfirst hc]

/-- C11, on a definition without comments or spell followed by one with the comments "doc"
and a spell in the current file: the comments returned are "doc". -/
theorem getHover_comments_local_witness :
    (getHover LanguageId.Cpp
        (some [{ hover := "int f()" },
               { comments := "doc", hover := "int f()", spell := some ⟨0⟩ }]) 0).2
      = some ⟨MarkupKind.Markdown, "doc"⟩ :=
  getHover_comments_local LanguageId.Cpp 0 _ 1
    { comments := "doc", hover := "int f()", spell := some ⟨0⟩ } rfl (by decide)
    (by
      intro j e hj he
      have hj0 : j = 0 := by omega
      subst hj0
      simp at he
      subst he
      decide)
    (by decide)

theorem loop_all_skipped (lang : LanguageId) (f : Int) (syms : List SymbolRef)
    (result : Hover)
    (h : ∀ p ∈ syms, p.ls_range = none ∨ getHover lang p.entity f = (none, none)) :
    textDocument_hover.loop lang f syms result = result := by
  induction syms with
  | nil => rfl
  | cons p rest ih =>
    rw [loop_skip lang f p rest result (h p (List.mem_cons_self p rest))]
    exact ih (fun q hq => h q (List.mem_cons_of_mem p hq))

/-- C12: for an entity with zero definitions `getHover` returns (None, None); when every
candidate has such an entity or no resolvable range, the response has the empty contents
value, no range and the default kind "markdown". -/
theorem hover_nothing_to_show (lang : LanguageId) (f : Int) (syms : List SymbolRef)
    (h : ∀ sym ∈ syms, sym.ls_range = none ∨ sym.entity = some []) :
    getHover lang (some []) f = (none, none) ∧
    (textDocument_hover lang f syms).contents.value = "" ∧
    (textDocument_hover lang f syms).range = none ∧
    (textDocument_hover lang f syms).contents.kind = "markdown" := by
  have hg : getHover lang (some []) f = (none, none) := rfl
  have hall : ∀ p ∈ syms, p.ls_range = none ∨ getHover lang p.entity f = (none, none) := by
    intro p hp
    rcases h p hp with h1 | h1
    · exact Or.inl h1
    · right; rw [h1]; exact hg
  have hres : textDocument_hover lang f syms = {} := by
    unfold textDocument_hover
    exact loop_all_skipped lang f syms {} hall
  rw [hres]
  exact ⟨hg, rfl, rfl, rfl⟩

/-- C12, on a cursor with one candidate without a range and one whose entity has no
definition. -/
theorem hover_nothing_to_show_witness :
    (textDocument_hover LanguageId.C 7
        [{ ls_range := none, kind := Kind.Func,
           entity := some [{ hover := "void g()", spell := some ⟨7⟩ }], type_size := 0 },
         { ls_range := some ⟨5, 1, 5, 2⟩, kind := Kind.Type, entity := some [],
           type_size := 8 }]).contents.value = "" ∧
    (textDocument_hover LanguageId.C 7
        [{ ls_range := none, kind := Kind.Func,
           entity := some [{ hover := "void g()", spell := some ⟨7⟩ }], type_size := 0 },
         { ls_range := some ⟨5, 1, 5, 2⟩, kind := Kind.Type, entity := some [],
           type_size := 8 }]).range = none ∧
    (textDocument_hover LanguageId.C 7
        [{ ls_range := none, kind := Kind.Func,
           entity := some [{ hover := "void g()", spell := some ⟨7⟩ }], type_size := 0 },
         { ls_range := some ⟨5, 1, 5, 2⟩, kind := Kind.Type, entity := some [],
           type_size := 8 }]).contents.kind = "markdown" :=
  (hover_nothing_to_show LanguageId.C 7
    [{ ls_range := none, kind := Kind.Func,
       entity := some [{ hover := "void g()", spell := some ⟨7⟩ }], type_size := 0 },
     { ls_range := some ⟨5, 1, 5, 2⟩, kind := Kind.Type, entity := some [],
       type_size := 8 }] (by decide)).2

theorem fallback_none_cons (lang : LanguageId) (d : Def) (rest : List Def) :
    getHover.fallback lang (d :: rest) none
      = some ⟨MarkupKind.Markdown,
          if d.hover ≠ "" then markdown_code lang d.hover
          else if d.detailed_name ≠ "" then markdown_code lang d.detailed_name
          else ""⟩ := by
  simp only [getHover.fallback]
  by_cases h1 : d.hover = "" <;> by_cases h2 : d.detailed_name = "" <;> simp [h1, h2]

theorem fallback_some (lang : LanguageId) (ds : List Def) (h : MarkupContent) :
    getHover.fallback lang ds (some h) = some h := by
  cases ds <;> rfl

/-- C14: for a non-empty definition list in which no scanned definition with a spell has a
hover or detailed_name text, the hover returned by `getHover` is the Markdown block with
the fence of the first definition's hover if that is non-empty, otherwise with the fence of
its detailed_name if that is non-empty. -/
theorem getHover_fallback_first (lang : LanguageId) (f : Int) (d0 : Def) (rest : List Def)
    (h : ∀ d ∈ scanned f (d0 :: rest), d.spell ≠ none → d.hover = "" ∧ d.detailed_name = "") :
    (d0.hover ≠ "" →
      (getHover lang (some (d0 :: rest)) f).1
        = some ⟨MarkupKind.Markdown, markdown_code lang d0.hover⟩) ∧
    (d0.hover = "" → d0.detailed_name ≠ "" →
      (getHover lang (some (d0 :: rest)) f).1
        = some ⟨MarkupKind.Markdown, markdown_code lang d0.detailed_name⟩) := by
  have hl := loop_hover_none lang f (d0 :: rest) h
  have hg : (getHover lang (some (d0 :: rest)) f).1
      = getHover.fallback lang (d0 :: rest) none := by
    simp only [getHover]
    rw [hl]
  rw [hg, fallback_none_cons]
  constructor
  · intro h1
    simp [h1]
  · intro h1 h2
    simp [h1, h2]

/-- C14, on a declaration "int f()" without spell followed by a spelled definition without
text in the current file, and on a first definition that only has a detailed_name. -/
theorem getHover_fallback_first_witness :
    (getHover LanguageId.Cpp (some [{ hover := "int f()" }, { spell := some ⟨0⟩ }]) 0).1
      = some ⟨MarkupKind.Markdown, "```cpp\nint f()\n```"⟩ ∧
    (getHover LanguageId.Cpp (some [{ detailed_name := "int g" }, { spell := some ⟨0⟩ }]) 0).1
      = some ⟨MarkupKind.Markdown, "```cpp\nint g\n```"⟩ :=
  ⟨(getHover_fallback_first LanguageId.Cpp 0 { hover := "int f()" } [{ spell := some ⟨0⟩ }]
      (by decide)).1 (by decide),
   (getHover_fallback_first LanguageId.Cpp 0 { detailed_name := "int g" }
      [{ spell := some ⟨0⟩ }] (by decide)).2 (by decide) (by decide)⟩

/-- C17: `getHover` returns a present hover block if and only if the entity has at least one
definition; for a non-empty list in which no definition has a hover or detailed_name text,
the block is present with the empty string as value (not a fence) and kind Markdown. -/
theorem getHover_hover_present (lang : LanguageId) (f : Int) (ds : List Def) :
    ((getHover lang (some ds) f).1 ≠ none ↔ ds ≠ []) ∧
    (ds ≠ [] → (∀ d ∈ ds, d.hover = "" ∧ d.detailed_name = "") →
      (getHover lang (some ds) f).1 = some ⟨MarkupKind.Markdown, ""⟩) := by
  cases ds with
  | nil =>
    refine ⟨?_, fun h => absurd rfl h⟩
    simp [getHover, getHover.loop, getHover.fallback]
  | cons d rest =>
    refine ⟨?_, ?_⟩
    · refine ⟨fun _ => List.cons_ne_nil d rest, fun _ => ?_⟩
      simp only [getHover]
      cases hl : (getHover.loop lang f (d :: rest) {}).hover with
      | none => rw [fallback_none_cons]; simp
      | some h0 => rw [fallback_some]; simp
    · intro _ hall
      have hl := loop_hover_none lang f (d :: rest)
        (fun e he _ => hall e (scanned_subset f (d :: rest) e he))
      have hd := hall d (List.mem_cons_self d rest)
      simp only [getHover]
      rw [hl, fallback_none_cons]
      simp [hd.1, hd.2]

/-- C17, on one definition that carries comments only: the hover block is present with the
empty value and kind Markdown. -/
theorem getHover_hover_present_witness :
    (getHover LanguageId.Cpp (some [{ comments := "doc", spell := some ⟨0⟩ }]) 0).1
      = some ⟨MarkupKind.Markdown, ""⟩ ∧
    (getHover LanguageId.Cpp (some [{ comments := "doc", spell := some ⟨0⟩ }]) 0).1 ≠ none :=
  ⟨(getHover_hover_present LanguageId.Cpp 0 [{ comments := "doc", spell := some ⟨0⟩ }]).2
      (by decide) (by decide),
   (getHover_hover_present LanguageId.Cpp 0 [{ comments := "doc", spell := some ⟨0⟩ }]).1.mpr
      (by decide)⟩

/-! ## The comments of the scan -/

theorem body_comments_eq (lang : LanguageId) (f : Int) (st : ScanState) (d : Def) :
    (getHover.body lang f st d).1.comments
      = if (d.spell.isSome && decide (d.comments ≠ "")) = true then some d.comments
        else if st.comments = none ∧ d.comments ≠ "" then some d.comments
        else st.comments := by
  cases hsp : d.spell with
  | none => simp [getHover.body, hsp]
  | some sp =>
    by_cases hc : d.comments = ""
    · simp [getHover.body, hsp, hc]
    · simp [getHover.body, hsp, hc]

theorem commentsFrom_nil (c0 : Option String) : commentsFrom c0 [] = c0 := by
  cases c0 <;> rfl

theorem commentsFrom_cons (lang : LanguageId) (f : Int) (st : ScanState) (d : Def)
    (ds : List Def) :
    commentsFrom st.comments (d :: ds)
      = commentsFrom (getHover.body lang f st d).1.comments ds := by
  rw [body_comments_eq]
  by_cases hp : (d.spell.isSome && decide (d.comments ≠ "")) = true
  · have hcne : d.comments ≠ "" := by
      simp only [Bool.and_eq_true, decide_eq_true_eq] at hp
      exact hp.2
    simp only [hp, if_true]
    have hf : List.filter (fun d => d.spell.isSome && decide (d.comments ≠ "")) (d :: ds)
        = d :: List.filter (fun d => d.spell.isSome && decide (d.comments ≠ "")) ds := by
      rw [List.filter_cons]
      simp only [hp, if_true]
    unfold commentsFrom
    rw [hf]
    cases hfl : ds.filter (fun d => d.spell.isSome && decide (d.comments ≠ "")) with
    | nil => simp
    | cons e l =>
      rw [List.getLast?_cons_cons, List.getLast?_eq_getLast _ (List.cons_ne_nil e l)]
  · simp only [hp]
    have hf : List.filter (fun d => d.spell.isSome && decide (d.comments ≠ "")) (d :: ds)
        = List.filter (fun d => d.spell.isSome && decide (d.comments ≠ "")) ds := by
      rw [List.filter_cons]
      simp only [hp, Bool.false_eq_true, if_false]
    unfold commentsFrom
    rw [hf]
    cases hgl : (ds.filter (fun d => d.spell.isSome && decide (d.comments ≠ ""))).getLast? with
    | some e => rfl
    | none =>
      cases hc0 : st.comments with
      | some c => simp
      | none =>
        by_cases hc : d.comments = ""
        · simp [hc, List.find?_cons]
        · simp [hc, List.find?_cons]

theorem loop_comments (lang : LanguageId) (f : Int) (ds : List Def) :
    ∀ st, (getHover.loop lang f ds st).comments = commentsFrom st.comments (scanned f ds) := by
  induction ds with
  | nil => intro st; simp [getHover.loop, scanned, commentsFrom_nil]
  | cons d rest ih =>
    intro st
    cases hs : spelledIn f d with
    | true =>
      simp only [scanned, hs, if_true]
      rw [loop_cons_break lang f st d rest hs, commentsFrom_cons lang f st d [],
        commentsFrom_nil]
    | false =>
      simp only [scanned, hs, Bool.false_eq_true, if_false]
      rw [loop_cons_continue lang f st d rest hs, commentsFrom_cons lang f st d, ih]

/-- C15: the comments returned by `getHover` are the Markdown block of the reference
`specComments` over the scanned definitions: the comments of the last scanned definition
with a spell and non-empty comments, else those of the first scanned definition with
non-empty comments, else none. A definition without a spell leaves comments that are already
set as they are. -/
theorem getHover_comments_spec (lang : LanguageId) (f : Int) (ds : List Def) :
    (getHover lang (some ds) f).2
      = (specComments (scanned f ds)).map (fun c => ⟨MarkupKind.Markdown, c⟩) ∧
    (∀ (st : ScanState) (d : Def), st.comments ≠ none → d.spell = none →
      (getHover.body lang f st d).1.comments = st.comments) := by
  constructor
  · have hl := loop_comments lang f ds {}
    have hs : commentsFrom none (scanned f ds) = specComments (scanned f ds) := rfl
    simp only [getHover]
    rw [hl]
    change (match commentsFrom none (scanned f ds) with
      | some comments => some ({ kind := MarkupKind.Markdown, value := comments } : MarkupContent)
      | none => none) = _
    rw [hs]
    cases specComments (scanned f ds) <;> rfl
  · intro st d hst hsp
    rw [body_comments_eq]
    simp [hsp, hst]

/-- C15, on a declaration with comments "decl", a spelled definition with comments "def1", a
declaration with comments "late" and a spelled definition in the current file without
comments: the comments are "def1"; and a declaration without spell after comments "decl"
leaves them. -/
theorem getHover_comments_spec_witness :
    (getHover LanguageId.Cpp
        (some [{ comments := "decl" }, { comments := "def1", spell := some ⟨1⟩ },
               { comments := "late" }, { spell := some ⟨0⟩ },
               { comments := "unseen", spell := some ⟨2⟩ }]) 0).2
      = some ⟨MarkupKind.Markdown, "def1"⟩ ∧
    (getHover.body LanguageId.Cpp 0 { comments := some "decl" } { comments := "late" }).1.comments
      = some "decl" :=
  ⟨(getHover_comments_spec LanguageId.Cpp 0
      [{ comments := "decl" }, { comments := "def1", spell := some ⟨1⟩ },
       { comments := "late" }, { spell := some ⟨0⟩ },
       { comments := "unseen", spell := some ⟨2⟩ }]).1,
   (getHover_comments_spec LanguageId.Cpp 0 []).2 { comments := some "decl" }
      { comments := "late" } (by decide) rfl⟩

/-! ## Lengths during the scan -/

theorem utf8ByteSize_append (a b : String) :
    (a ++ b).utf8ByteSize = a.utf8ByteSize + b.utf8ByteSize := by
  cases a with
  | mk as =>
    cases b with
    | mk bs =>
      change String.utf8ByteSize ⟨as ++ bs⟩ = _
      simp only [String.utf8ByteSize_mk, String.utf8Len_append]

theorem markdown_code_size_ge (lang : LanguageId) (code : String) :
    code.utf8ByteSize ≤ (markdown_code lang code).utf8ByteSize := by
  unfold markdown_code
  simp only [utf8ByteSize_append]
  omega

theorem body_hover_grows (lang : LanguageId) (f : Int) (st : ScanState) (d : Def)
    (h0 : MarkupContent) (hst : st.hover = some h0) :
    ∃ h1, (getHover.body lang f st d).1.hover = some h1 ∧
      h0.value.utf8ByteSize ≤ h1.value.utf8ByteSize := by
  cases hsp : d.spell with
  | none => exact ⟨h0, by simp [getHover.body, hsp, hst], Nat.le_refl _⟩
  | some sp =>
    cases hc : candidateText d with
    | none => exact ⟨h0, by simp [getHover.body, hsp, hc, hst], Nat.le_refl _⟩
    | some s =>
      by_cases hgt : s.utf8ByteSize > h0.value.utf8ByteSize
      · exact ⟨{ h0 with value := s }, by simp [getHover.body, hsp, hc, hst, hgt],
          Nat.le_of_lt hgt⟩
      · exact ⟨h0, by simp [getHover.body, hsp, hc, hst, hgt], Nat.le_refl _⟩

theorem body_hover_covers (lang : LanguageId) (f : Int) (st : ScanState) (d : Def)
    (t : String) (hsp : d.spell ≠ none) (ht : candidateText d = some t) :
    ∃ h1, (getHover.body lang f st d).1.hover = some h1 ∧
      t.utf8ByteSize ≤ h1.value.utf8ByteSize := by
  cases hs : d.spell with
  | none => exact absurd hs hsp
  | some sp =>
    cases ho : st.hover with
    | none =>
      exact ⟨⟨MarkupKind.Markdown, markdown_code lang t⟩,
        by simp [getHover.body, hs, ht, ho], markdown_code_size_ge lang t⟩
    | some h0 =>
      by_cases hgt : t.utf8ByteSize > h0.value.utf8ByteSize
      · exact ⟨{ h0 with value := t }, by simp [getHover.body, hs, ht, ho, hgt],
          Nat.le_refl _⟩
      · exact ⟨h0, by simp [getHover.body, hs, ht, ho, hgt], Nat.le_of_not_gt hgt⟩

theorem loop_hover_grows (lang : LanguageId) (f : Int) (ds : List Def) :
    ∀ (st : ScanState) (h0 : MarkupContent), st.hover = some h0 →
      ∃ h1, (getHover.loop lang f ds st).hover = some h1 ∧
        h0.value.utf8ByteSize ≤ h1.value.utf8ByteSize := by
  induction ds with
  | nil => intro st h0 hst; exact ⟨h0, by simpa [getHover.loop] using hst, Nat.le_refl _⟩
  | cons d rest ih =>
    intro st h0 hst
    obtain ⟨h1, hb, hle⟩ := body_hover_grows lang f st d h0 hst
    cases hs : spelledIn f d with
    | true =>
      rw [loop_cons_break lang f st d rest hs]
      exact ⟨h1, hb, hle⟩
    | false =>
      rw [loop_cons_continue lang f st d rest hs]
      obtain ⟨h2, hl, hle2⟩ := ih _ h1 hb
      exact ⟨h2, hl, Nat.le_trans hle hle2⟩

theorem loop_hover_covers (lang : LanguageId) (f : Int) (ds : List Def) :
    ∀ (st : ScanState) (h : MarkupContent), (getHover.loop lang f ds st).hover = some h →
      ∀ d ∈ scanned f ds, d.spell ≠ none → ∀ t, candidateText d = some t →
        t.utf8ByteSize ≤ h.value.utf8ByteSize := by
  induction ds with
  | nil => intro st h _ d hd; simp [scanned] at hd
  | cons a rest ih =>
    intro st h hfin d hd hsp t ht
    cases hs : spelledIn f a with
    | true =>
      simp only [scanned, hs, if_true, List.mem_singleton] at hd
      subst hd
      rw [loop_cons_break lang f st d rest hs] at hfin
      obtain ⟨h1, hb, hle⟩ := body_hover_covers lang f st d t hsp ht
      rw [hb, Option.some.injEq] at hfin
      subst hfin
      exact hle
    | false =>
      simp only [scanned, hs, Bool.false_eq_true, if_false] at hd
      rw [loop_cons_continue lang f st a rest hs] at hfin
      rcases List.mem_cons.mp hd with hda | hdr
      · subst hda
        obtain ⟨h1, hb, hle⟩ := body_hover_covers lang f st d t hsp ht
        obtain ⟨h2, hl, hle2⟩ := loop_hover_grows lang f rest _ h1 hb
        rw [hl, Option.some.injEq] at hfin
        subst hfin
        exact Nat.le_trans hle hle2
      · exact ih _ h hfin d hdr hsp t ht

/-- C18: when the scan of `getHover` chooses a hover, that hover is the one returned, and
the byte length of its value is at least that of the candidate text (hover, else
detailed_name) of every scanned definition that has a spell; in an iteration the byte
length of the running hover value never decreases. -/
theorem getHover_hover_length (lang : LanguageId) (f : Int) (ds : List Def)
    (h : MarkupContent) (hscan : (getHover.loop lang f ds {}).hover = some h) :
    (getHover lang (some ds) f).1 = some h ∧
    (∀ d ∈ scanned f ds, d.spell ≠ none → ∀ t ∈ candidateText d,
      t.utf8ByteSize ≤ h.value.utf8ByteSize) ∧
    (∀ (st : ScanState) (d : Def) (h0 : MarkupContent), st.hover = some h0 →
      ∃ h1, (getHover.body lang f st d).1.hover = some h1 ∧
        h0.value.utf8ByteSize ≤ h1.value.utf8ByteSize) := by
  refine ⟨?_, ?_, ?_⟩
  · simp only [getHover]
    rw [hscan, fallback_some]
  · intro d hd hsp t ht
    exact loop_hover_covers lang f ds {} h hscan d hd hsp t ht
  · intro st d h0 hst
    exact body_hover_grows lang f st d h0 hst

/-- C18, on the spelled definitions "a" and "int f(int x=0)": the scan ends with the second
text as value, 14 bytes long, at least as long as both texts. -/
theorem getHover_hover_length_witness :
    (getHover LanguageId.Cpp
        (some [{ hover := "a", spell := some ⟨1⟩ },
               { hover := "int f(int x=0)", spell := some ⟨0⟩ }]) 0).1
      = some ⟨MarkupKind.Markdown, "int f(int x=0)"⟩ ∧
    (∀ d ∈ scanned 0 [{ hover := "a", spell := some ⟨1⟩ },
                      { hover := "int f(int x=0)", spell := some ⟨0⟩ }],
      d.spell ≠ none → ∀ t ∈ candidateText d,
        t.utf8ByteSize ≤ (⟨MarkupKind.Markdown, "int f(int x=0)"⟩ : MarkupContent).value.utf8ByteSize) :=
  ⟨(getHover_hover_length LanguageId.Cpp 0
      [{ hover := "a", spell := some ⟨1⟩ }, { hover := "int f(int x=0)", spell := some ⟨0⟩ }]
      ⟨MarkupKind.Markdown, "int f(int x=0)"⟩ (by decide)).1,
   (getHover_hover_length LanguageId.Cpp 0
      [{ hover := "a", spell := some ⟨1⟩ }, { hover := "int f(int x=0)", spell := some ⟨0⟩ }]
      ⟨MarkupKind.Markdown, "int f(int x=0)"⟩ (by decide)).2.1⟩

/-! ## The assembled response -/

theorem fill_fresh_eq (r : lsRange) (hover comments : Option MarkupContent) (sym : SymbolRef) :
    textDocument_hover.fill {} r hover comments sym
      = if sym.kind = Kind.Type ∧ sym.type_size % 4294967296 ≠ 0 then
          (hoverBlocks r hover comments).addText
            ("sizeof: " ++ toString (sym.type_size % 4294967296))
        else hoverBlocks r hover comments := by
  unfold textDocument_hover.fill hoverBlocks
  by_cases hk : sym.kind = Kind.Type
  · by_cases hz : sym.type_size % 4294967296 = 0
    · cases comments <;> cases hover <;> simp [hk, hz]
    · cases comments <;> cases hover <;> simp [hk, hz]
  · cases comments <;> cases hover <;> simp [hk]

theorem response_of_chosen (lang : LanguageId) (f : Int) (pre : List SymbolRef)
    (c : SymbolRef) (post : List SymbolRef) (r : lsRange)
    (hover comments : Option MarkupContent)
    (hpre : ∀ p ∈ pre, p.ls_range = none ∨ getHover lang p.entity f = (none, none))
    (hr : c.ls_range = some r) (hg : getHover lang c.entity f = (hover, comments))
    (hne : (hover, comments) ≠ (none, none)) :
    textDocument_hover lang f (pre ++ c :: post)
      = if c.kind = Kind.Type ∧ c.type_size % 4294967296 ≠ 0 then
          (hoverBlocks r hover comments).addText
            ("sizeof: " ++ toString (c.type_size % 4294967296))
        else hoverBlocks r hover comments := by
  unfold textDocument_hover
  rw [loop_append_pick lang f c post r hr (by rw [hg]; exact hne) pre {} hpre, hg,
    fill_fresh_eq]

theorem hoverBlocks_value_ne (r : lsRange) (hover comments : Option MarkupContent)
    (h : MarkupContent) (hh : hover = some h) (hv : h.value ≠ "") :
    (hoverBlocks r hover comments).contents.value ≠ "" := by
  subst hh
  unfold hoverBlocks
  cases comments with
  | none => exact add_value_ne _ h (Or.inr hv)
  | some c => exact add_value_ne _ h (Or.inr hv)

/-- C13: for the chosen candidate, whose `type_size` is an unsigned 32-bit value `n`: if its
kind is Type and `n` is non-zero, the contents value is the value assembled from the
comments and hover blocks, followed by the separator "\n___\n" when that value is non-empty
(so whenever hover text exists), followed by "sizeof: " and the decimal rendering of `n`;
if its kind is not Type or `n` is 0, the response is the one assembled from the comments
and hover blocks alone. -/
theorem hover_sizeof (lang : LanguageId) (f : Int) (pre : List SymbolRef) (c : SymbolRef)
    (post : List SymbolRef) (r : lsRange) (hover comments : Option MarkupContent)
    (hpre : ∀ p ∈ pre, p.ls_range = none ∨ getHover lang p.entity f = (none, none))
    (hr : c.ls_range = some r) (hg : getHover lang c.entity f = (hover, comments))
    (hne : (hover, comments) ≠ (none, none)) (hn : c.type_size < 4294967296) :
    (c.kind = Kind.Type → c.type_size ≠ 0 →
      (textDocument_hover lang f (pre ++ c :: post)).contents.value
        = (if (hoverBlocks r hover comments).contents.value = "" then ""
           else (hoverBlocks r hover comments).contents.value ++ "\n___\n")
          ++ ("sizeof: " ++ toString c.type_size) ∧
      (∀ h, hover = some h → h.value ≠ "" →
        (textDocument_hover lang f (pre ++ c :: post)).contents.value
          = (hoverBlocks r hover comments).contents.value ++ "\n___\n"
            ++ ("sizeof: " ++ toString c.type_size))) ∧
    ((c.kind ≠ Kind.Type ∨ c.type_size = 0) →
      textDocument_hover lang f (pre ++ c :: post) = hoverBlocks r hover comments) := by
  have hresp := response_of_chosen lang f pre c post r hover comments hpre hr hg hne
  have hmod : c.type_size % 4294967296 = c.type_size := Nat.mod_eq_of_lt hn
  rw [hmod] at hresp
  refine ⟨fun hk hz => ?_, fun hno => ?_⟩
  · have hcond : c.kind = Kind.Type ∧ c.type_size ≠ 0 := ⟨hk, hz⟩
    rw [hresp, if_pos hcond]
    have hval : ∀ x : Hover, x.contents.value ≠ "" →
        (x.addText ("sizeof: " ++ toString c.type_size)).contents.value
          = x.contents.value ++ "\n___\n" ++ ("sizeof: " ++ toString c.type_size) := by
      intro x hx
      rw [addText_contents_of_ne x _ hx]
    refine ⟨?_, ?_⟩
    · by_cases hb : (hoverBlocks r hover comments).contents.value = ""
      · rw [addText_contents_of_empty _ _ hb, if_pos hb]
        simp
      · rw [hval _ hb, if_neg hb]
    · intro h hh hv
      exact hval _ (hoverBlocks_value_ne r hover comments h hh hv)
  · have hcond : ¬ (c.kind = Kind.Type ∧ c.type_size ≠ 0) := by
      rintro ⟨hk, hz⟩
      rcases hno with h1 | h1
      · exact h1 hk
      · exact hz h1
    rw [hresp, if_neg hcond]

/-- C13, on a type "struct S" of size 8 with hover text: the value ends with the separator
and "sizeof: 8"; the same symbol with size 0 gets no such segment. -/
theorem hover_sizeof_witness :
    (textDocument_hover LanguageId.Cpp 0
        [{ ls_range := some ⟨4, 7, 4, 8⟩, kind := Kind.Type,
           entity := some [{ hover := "struct S", spell := some ⟨0⟩ }],
           type_size := 8 }]).contents.value
      = "```cpp\nstruct S\n```\n___\nsizeof: 8" ∧
    textDocument_hover LanguageId.Cpp 0
        [{ ls_range := some ⟨4, 7, 4, 8⟩, kind := Kind.Type,
           entity := some [{ hover := "struct S", spell := some ⟨0⟩ }],
           type_size := 0 }]
      = ⟨⟨MarkupKind.Markdown, "```cpp\nstruct S\n```"⟩, some ⟨4, 7, 4, 8⟩⟩ :=
  ⟨((hover_sizeof LanguageId.Cpp 0 []
      { ls_range := some ⟨4, 7, 4, 8⟩, kind := Kind.Type,
        entity := some [{ hover := "struct S", spell := some ⟨0⟩ }], type_size := 8 }
      [] ⟨4, 7, 4, 8⟩ (some ⟨MarkupKind.Markdown, "```cpp\nstruct S\n```"⟩) none
      (by decide) rfl (by decide) (by decide) (by decide)).1 rfl (by decide)).2
      ⟨MarkupKind.Markdown, "```cpp\nstruct S\n```"⟩ rfl (by decide),
   (hover_sizeof LanguageId.Cpp 0 []
      { ls_range := some ⟨4, 7, 4, 8⟩, kind := Kind.Type,
        entity := some [{ hover := "struct S", spell := some ⟨0⟩ }], type_size := 0 }
      [] ⟨4, 7, 4, 8⟩ (some ⟨MarkupKind.Markdown, "```cpp\nstruct S\n```"⟩) none
      (by decide) rfl (by decide) (by decide) (by decide)).2 (Or.inr rfl)⟩

/-- A resolver output that has a comments block has a hover block: comments come from a
definition, and the fallback makes a hover block for every entity with a definition. -/
theorem getHover_hover_of_comments (lang : LanguageId) (entity : Option (List Def)) (f : Int)
    (h : (getHover lang entity f).2 ≠ none) : (getHover lang entity f).1 ≠ none := by
  cases entity with
  | none => exact absurd rfl h
  | some ds =>
    cases ds with
    | nil => exact absurd rfl h
    | cons d rest =>
      simp only [getHover]
      cases hl : (getHover.loop lang f (d :: rest) {}).hover with
      | none => rw [fallback_none_cons]; simp
      | some h0 => rw [fallback_some]; simp


/-- C16: for the chosen candidate without size annotation the response is the handler's
body run on the resolver output; with comments block `cm` and hover block `h` both of
non-empty value, the contents are the Markdown block with value
`cm.value ++ "\n___\n" ++ h.value`; with the hover block alone the value is exactly its
value. A resolver output never has comments without a hover block; the handler's body run
on a comments block alone gives exactly that block's value. -/
theorem hover_comments_then_hover (lang : LanguageId) (f : Int) (pre : List SymbolRef)
    (c : SymbolRef) (post : List SymbolRef) (r : lsRange)
    (hover comments : Option MarkupContent)
    (hpre : ∀ p ∈ pre, p.ls_range = none ∨ getHover lang p.entity f = (none, none))
    (hr : c.ls_range = some r) (hg : getHover lang c.entity f = (hover, comments))
    (hne : (hover, comments) ≠ (none, none))
    (hsize : c.kind ≠ Kind.Type ∨ c.type_size % 4294967296 = 0) :
    textDocument_hover lang f (pre ++ c :: post)
      = textDocument_hover.fill {} r hover comments c ∧
    (∀ cm h, comments = some cm → hover = some h → cm.value ≠ "" → h.value ≠ "" →
      (textDocument_hover lang f (pre ++ c :: post)).contents
        = ⟨MarkupKind.Markdown, cm.value ++ "\n___\n" ++ h.value⟩) ∧
    (∀ h, comments = none → hover = some h →
      (textDocument_hover lang f (pre ++ c :: post)).contents.value = h.value) ∧
    (comments ≠ none → hover ≠ none) ∧
    (∀ (r0 : lsRange) (cm : MarkupContent) (sym : SymbolRef),
      (sym.kind ≠ Kind.Type ∨ sym.type_size % 4294967296 = 0) →
      (textDocument_hover.fill {} r0 none (some cm) sym).contents.value = cm.value) := by
  have hresp := response_of_chosen lang f pre c post r hover comments hpre hr hg hne
  have hfill : textDocument_hover lang f (pre ++ c :: post)
      = textDocument_hover.fill {} r hover comments c := by
    rw [hresp, fill_fresh_eq]
  have hcond : ¬ (c.kind = Kind.Type ∧ c.type_size % 4294967296 ≠ 0) := by
    rintro ⟨hk, hz⟩
    rcases hsize with h1 | h1
    · exact h1 hk
    · exact hz h1
  rw [if_neg hcond] at hresp
  refine ⟨hfill, ?_, ?_, ?_, ?_⟩
  · intro cm h hcm hh hcv _
    rw [hresp]
    subst hcm
    subst hh
    unfold hoverBlocks
    have h1 : (({ range := some r } : Hover).add cm).contents = ⟨cm.kind, cm.value⟩ :=
      add_contents_of_empty _ _ rfl
    have h2 : (({ range := some r } : Hover).add cm).contents.value ≠ "" := by
      rw [h1]; exact hcv
    simp only []
    rw [add_contents_of_ne _ _ h2, h1]
  · intro h hcm hh
    rw [hresp]
    subst hcm
    subst hh
    unfold hoverBlocks
    simp only []
    rw [add_contents_of_empty _ _ rfl]
  · intro hcm
    have h2 : (getHover lang c.entity f).2 ≠ none := by rw [hg]; exact hcm
    have h1 := getHover_hover_of_comments lang c.entity f h2
    rw [hg] at h1
    exact h1
  · intro r0 cm sym hs
    have hc : ¬ (sym.kind = Kind.Type ∧ sym.type_size % 4294967296 ≠ 0) := by
      rintro ⟨hk, hz⟩
      rcases hs with h1 | h1
      · exact h1 hk
      · exact hz h1
    rw [fill_fresh_eq, if_neg hc]
    unfold hoverBlocks
    simp only []
    rw [add_contents_of_empty _ _ rfl]

/-- C16, on a variable documented "doc" and declared "int x": documentation first, then the
fenced signature; on an undocumented one: the fenced signature alone; and the handler's
body on the comments block "doc" alone: "doc". -/
theorem hover_comments_then_hover_witness :
    (textDocument_hover LanguageId.Cpp 0
        [{ ls_range := some ⟨1, 2, 1, 3⟩, kind := Kind.Var,
           entity := some [{ comments := "doc", hover := "int x", spell := some ⟨0⟩ }],
           type_size := 0 }]).contents
      = ⟨MarkupKind.Markdown, "doc\n___\n```cpp\nint x\n```"⟩ ∧
    (textDocument_hover LanguageId.Cpp 0
        [{ ls_range := some ⟨1, 2, 1, 3⟩, kind := Kind.Var,
           entity := some [{ hover := "int x", spell := some ⟨0⟩ }],
           type_size := 0 }]).contents.value
      = "```cpp\nint x\n```" ∧
    (textDocument_hover.fill {} ⟨1, 2, 1, 3⟩ none (some ⟨MarkupKind.Markdown, "doc"⟩)
        { ls_range := some ⟨1, 2, 1, 3⟩, kind := Kind.Var, entity := none,
          type_size := 0 }).contents.value
      = "doc" :=
  ⟨(hover_comments_then_hover LanguageId.Cpp 0 []
      { ls_range := some ⟨1, 2, 1, 3⟩, kind := Kind.Var,
        entity := some [{ comments := "doc", hover := "int x", spell := some ⟨0⟩ }],
        type_size := 0 }
      [] ⟨1, 2, 1, 3⟩ (some ⟨MarkupKind.Markdown, "```cpp\nint x\n```"⟩)
      (some ⟨MarkupKind.Markdown, "doc"⟩)
      (by decide) rfl (by decide) (by decide) (by decide)).2.1
      ⟨MarkupKind.Markdown, "doc"⟩ ⟨MarkupKind.Markdown, "```cpp\nint x\n```"⟩ rfl rfl
      (by decide) (by decide),
   (hover_comments_then_hover LanguageId.Cpp 0 []
      { ls_range := some ⟨1, 2, 1, 3⟩, kind := Kind.Var,
        entity := some [{ hover := "int x", spell := some ⟨0⟩ }], type_size := 0 }
      [] ⟨1, 2, 1, 3⟩ (some ⟨MarkupKind.Markdown, "```cpp\nint x\n```"⟩) none
      (by decide) rfl (by decide) (by decide) (by decide)).2.2.1
      ⟨MarkupKind.Markdown, "```cpp\nint x\n```"⟩ rfl rfl,
   (hover_comments_then_hover LanguageId.Cpp 0 []
      { ls_range := some ⟨1, 2, 1, 3⟩, kind := Kind.Var,
        entity := some [{ hover := "int x", spell := some ⟨0⟩ }], type_size := 0 }
      [] ⟨1, 2, 1, 3⟩ (some ⟨MarkupKind.Markdown, "```cpp\nint x\n```"⟩) none
      (by decide) rfl (by decide) (by decide) (by decide)).2.2.2.2
      ⟨1, 2, 1, 3⟩ ⟨MarkupKind.Markdown, "doc"⟩
      { ls_range := some ⟨1, 2, 1, 3⟩, kind := Kind.Var, entity := none, type_size := 0 }
      (by decide)⟩

/-! ## The hover the scan adopts -/

end ccls
